import Mathlib

/-!
Shallow embedding of `src/fava/beans/prices.py` (class `FavaPriceMap` and its
helpers).  Dates are modelled as naturals (only their ordering matters),
currency codes as strings, and exact decimal rates as rationals.  Python
dictionaries (`defaultdict`, `Counter`) are modelled as insertion-ordered
association lists, which matches the iteration order of Python dicts; the
`_currencies` set is modelled as an insertion-ordered duplicate-free list.
A Python runtime error (e.g. an out-of-bounds index) is modelled by `none`
in the outermost `Option` of a result; a value the code returns is `some`.
-/

namespace Fava

abbrev Currency := String

abbrev BaseQuote := Currency × Currency

abbrev PricePoint := Nat × ℚ

/-- One price entry as fed to `FavaPriceMap.__init__`: `price.amount` of
`prices.py`, with `currency` the quote currency and `number` the rate. -/
structure Amount where
  currency : Currency
  number : ℚ
deriving DecidableEq, Repr

/-- One price entry (`price.date`, `price.currency`, `price.amount`). -/
structure Price where
  date : Nat
  currency : Currency
  amount : Amount
deriving DecidableEq, Repr

/-- The result of `get_price_point`: an optional date and an optional rate,
covering the three Python return shapes `PricePoint`, `(None, ONE)` and
`(None, None)`. -/
abbrev PriceResult := Option Nat × Option ℚ

/-- Lookup in an insertion-ordered association list (Python `dict.get`). -/
def alookup (k : BaseQuote) : List (BaseQuote × α) → Option α
  | [] => none
  | kv :: rest => if kv.1 = k then some kv.2 else alookup k rest

/-- `raw_map[base_quote].append(point)` on a `defaultdict(list)`: extend the
list stored at the key, inserting the key at the end on first use. -/
def updateAppend (m : List (BaseQuote × List PricePoint)) (k : BaseQuote)
    (v : PricePoint) : List (BaseQuote × List PricePoint) :=
  match m with
  | [] => [(k, [v])]
  | kv :: rest =>
    if kv.1 = k then (kv.1, kv.2 ++ [v]) :: rest
    else kv :: updateAppend rest k v

/-- `counts[base_quote] += 1` on a `Counter`. -/
def incrCount (m : List (BaseQuote × Nat)) (k : BaseQuote) :
    List (BaseQuote × Nat) :=
  match m with
  | [] => [(k, 1)]
  | kv :: rest =>
    if kv.1 = k then (kv.1, kv.2 + 1) :: rest
    else kv :: incrCount rest k

/-- `counts.get(key, 0)`. -/
def countGet (m : List (BaseQuote × Nat)) (k : BaseQuote) : Nat :=
  (alookup k m).getD 0

/-- `self._currencies.add(c)` on the (insertion-ordered model of the) set. -/
def addCurrency (cs : List Currency) (c : Currency) : List Currency :=
  if c ∈ cs then cs else cs ++ [c]

/-- Helper of `_keep_last_per_day`: the loop state after `last = next(it)`.
`keep_last_go last l` is the rest of the scan with accumulator `last`. -/
def keep_last_go (last : PricePoint) : List PricePoint → List PricePoint
  | [] => [last]
  | p :: ps =>
    if p.1 > last.1 then last :: keep_last_go p ps else keep_last_go p ps

/-- Embedding of `_keep_last_per_day`.  The Python generator requires a
non-empty list (it is only called on non-empty ones); we totalise it with
`[] ↦ []`. -/
def keep_last_per_day : List PricePoint → List PricePoint
  | [] => []
  | p :: ps => keep_last_go p ps

/-- Loop of `bisect.bisect` (i.e. `bisect_right`), searching the list of
dates of `price_list` as exposed by `DateKeyWrapper`.  The `while lo < hi`
loop is driven by explicit fuel (any fuel at least `hi - lo` gives the exact
Python behaviour, see `bisect_loop_fuel`). -/
def bisect_loop (a : List Nat) (x : Nat) : Nat → Nat → Nat → Nat
  | 0, lo, _ => lo
  | fuel + 1, lo, hi =>
    if lo < hi then
      let mid := (lo + hi) / 2
      if x < a.getD mid 0 then bisect_loop a x fuel lo mid
      else bisect_loop a x fuel (mid + 1) hi
    else lo

/-- `bisect(DateKeyWrapper(price_list), date)`: `DateKeyWrapper` exposes
`price_list[k][0]`, so this is a right-bisect over the dates. -/
def bisect (price_list : List PricePoint) (x : Nat) : Nat :=
  bisect_loop (price_list.map Prod.fst) x price_list.length 0 price_list.length

/-- The internal state of `FavaPriceMap.__init__` after ingesting a prefix of
the price entries: `raw_map`, `counts` and `self._currencies`. -/
structure RawState where
  raw : List (BaseQuote × List PricePoint)
  counts : List (BaseQuote × Nat)
  currencies : List Currency
deriving Repr

/-- The body of the `for price in price_entries` loop of
`FavaPriceMap.__init__`. -/
def ingest (st : RawState) (price : Price) : RawState :=
  let currencies := addCurrency (addCurrency st.currencies price.currency)
    price.amount.currency
  let rate := price.amount.number
  let base_quote : BaseQuote := (price.currency, price.amount.currency)
  let raw := updateAppend st.raw base_quote (price.date, rate)
  let counts := incrCount st.counts base_quote
  let raw :=
    if rate ≠ 0 then
      updateAppend raw (price.amount.currency, price.currency)
        (price.date, 1 / rate)
    else raw
  ⟨raw, counts, currencies⟩

/-- Embedding of the `FavaPriceMap` object after `__init__` has run. -/
structure FavaPriceMap where
  _currencies : List Currency
  _forward_pairs : List BaseQuote
  _map : List (BaseQuote × List PricePoint)
deriving Repr

/-- Embedding of `FavaPriceMap.__init__` applied to a full entry list. -/
def FavaPriceMap.ofEntries (price_entries : List Price) : FavaPriceMap :=
  let st := price_entries.foldl ingest ⟨[], [], []⟩
  { _currencies := st.currencies
    _forward_pairs := st.counts.filterMap fun bqc =>
      if countGet st.counts (bqc.1.2, bqc.1.1) < bqc.2 then some bqc.1 else none
    _map := st.raw.map fun kl => (kl.1, keep_last_per_day kl.2) }

/-- Python tuple comparison `(a1, a2) <= (b1, b2)` for pairs of strings:
lexicographic on the currency codes. -/
def bqLE (a b : BaseQuote) : Bool :=
  decide (a.1 < b.1) || (decide (a.1 = b.1) && decide (a.2 ≤ b.2))

/-- Embedding of `FavaPriceMap.commodity_pairs`. -/
def FavaPriceMap.commodity_pairs (m : FavaPriceMap)
    (operating_currencies : List Currency) : List BaseQuote :=
  let forward_pairs := m._forward_pairs
  let extra_operating_pairs := forward_pairs.filterMap fun bq =>
    if bq.1 ∈ operating_currencies ∧ bq.2 ∈ operating_currencies then
      some (bq.2, bq.1)
    else none
  (forward_pairs ++ extra_operating_pairs).mergeSort bqLE

/-- Embedding of `FavaPriceMap.get_all_prices`. -/
def FavaPriceMap.get_all_prices (m : FavaPriceMap) (base_quote : BaseQuote) :
    Option (List PricePoint) :=
  alookup base_quote m._map

/-- The `for currency in self._currencies` fallback loop of
`get_price_point`; `recurse` is the recursive call (at one less fuel). -/
def try_conversion (m : FavaPriceMap)
    (recurse : BaseQuote → Option Nat → Option PriceResult)
    (base quote : Currency) (date : Option Nat) :
    List Currency → Option PriceResult
  | [] => some (none, none)
  | currency :: rest =>
    if currency = base ∨ currency = quote then
      try_conversion m recurse base quote date rest
    else
      match alookup (base, currency) m._map, alookup (currency, quote) m._map with
      | some price_list1, some price_list2 =>
        (match date with
        | none =>
          match price_list1.getLast?, price_list2.getLast? with
          | some p1, some p2 =>
            if p1.1 < p2.1 then recurse (currency, quote) (some p1.1)
            else recurse (base, currency) (some p2.1)
          | _, _ => none
        | some d =>
          let index := bisect price_list1 d
          if index = 0 then some (none, none)
          else
            match price_list1.get? (index - 1) with
            | some p1 => recurse (currency, quote) (some p1.1)
            | none => none)
      | _, _ => try_conversion m recurse base quote date rest

/-- Embedding of `FavaPriceMap.get_price_point`, with explicit recursion
fuel; exhausted fuel (`none`) models non-termination and never occurs for
fuel at least 2 (`get_price_point_fuel_indep`). -/
def get_price_point_fuel (m : FavaPriceMap) :
    Nat → BaseQuote → Option Nat → Option PriceResult
  | 0, _, _ => none
  | fuel + 1, base_quote, date =>
    if base_quote.1 = base_quote.2 then some (none, some 1)
    else
      match alookup base_quote m._map with
      | some price_list =>
        (match date with
        | none => price_list.getLast?.map fun p => (some p.1, some p.2)
        | some d =>
          let index := bisect price_list d
          if index = 0 then some (none, none)
          else (price_list.get? (index - 1)).map fun p => (some p.1, some p.2))
      | none =>
        try_conversion m (get_price_point_fuel m fuel) base_quote.1
          base_quote.2 date m._currencies

/-- Embedding of `FavaPriceMap.get_price_point` (fuel 2 suffices, see
`get_price_point_fuel_indep`). -/
def FavaPriceMap.get_price_point (m : FavaPriceMap) (base_quote : BaseQuote)
    (date : Option Nat) : Option PriceResult :=
  get_price_point_fuel m 2 base_quote date

/-- Embedding of `FavaPriceMap.get_price`: the rate component of
`get_price_point`. -/
def FavaPriceMap.get_price (m : FavaPriceMap) (base_quote : BaseQuote)
    (date : Option Nat) : Option (Option ℚ) :=
  (m.get_price_point base_quote date).map Prod.snd

/-- The price points that one entry contributes to the raw series of a
directed pair: the direct observation and, for a nonzero rate, the synthetic
inverse (mirroring the two `raw_map[...].append` calls of `__init__`). -/
def contribsOne (bq : BaseQuote) (p : Price) : List PricePoint :=
  (if (p.currency, p.amount.currency) = bq then [(p.date, p.amount.number)]
   else []) ++
  (if p.amount.number ≠ 0 ∧ (p.amount.currency, p.currency) = bq then
    [(p.date, 1 / p.amount.number)]
   else [])

/-- All price points contributed to the raw series of a directed pair by an
entry list, in ingestion order. -/
def contribs (bq : BaseQuote) : List Price → List PricePoint
  | [] => []
  | p :: rest => contribsOne bq p ++ contribs bq rest

/-- The number of genuine (direct) observations of a directed pair, which is
what the `counts` Counter tracks. -/
def obsCount (bq : BaseQuote) (entries : List Price) : Nat :=
  entries.countP fun p => decide ((p.currency, p.amount.currency) = bq)

end Fava

namespace Fava

/-! ### Association list and construction lemmas -/

def optAppend (o : Option (List PricePoint)) (l : List PricePoint) :
    Option (List PricePoint) :=
  match o, l with
  | none, [] => none
  | none, l => some l
  | some l0, l => some (l0 ++ l)

theorem optAppend_eq (o : Option (List PricePoint)) (l : List PricePoint) :
    optAppend o l = if l = [] then o else some (o.getD [] ++ l) := by
  cases o <;> cases l <;> simp [optAppend]

theorem optAppend_assoc (o : Option (List PricePoint))
    (l1 l2 : List PricePoint) :
    optAppend (optAppend o l1) l2 = optAppend o (l1 ++ l2) := by
  cases o <;> cases l1 <;> cases l2 <;> simp [optAppend]

theorem alookup_updateAppend_self (m : List (BaseQuote × List PricePoint))
    (k : BaseQuote) (v : PricePoint) :
    alookup k (updateAppend m k v) = some ((alookup k m).getD [] ++ [v]) := by
  induction m with
  | nil => simp [alookup, updateAppend]
  | cons kv rest ih =>
    by_cases h : kv.1 = k
    · simp [alookup, updateAppend, h]
    · simp [alookup, updateAppend, h, ih]

theorem alookup_updateAppend_ne (m : List (BaseQuote × List PricePoint))
    {k k2 : BaseQuote} (v : PricePoint) (h : k2 ≠ k) :
    alookup k2 (updateAppend m k v) = alookup k2 m := by
  have h2 : ¬k = k2 := fun hh => h hh.symm
  induction m with
  | nil => simp [alookup, updateAppend, h2]
  | cons kv rest ih =>
    by_cases hk : kv.1 = k
    · have hne : ¬kv.1 = k2 := by rw [hk]; exact h2
      simp [alookup, updateAppend, hk, hne, h2]
    · simp only [updateAppend, if_neg hk]
      by_cases hk2 : kv.1 = k2 <;> simp [alookup, hk2, ih]

theorem alookup_updateAppend (m : List (BaseQuote × List PricePoint))
    (k k2 : BaseQuote) (v : PricePoint) :
    alookup k2 (updateAppend m k v) =
      optAppend (alookup k2 m) (if k = k2 then [v] else []) := by
  by_cases h : k = k2
  · subst h
    rw [alookup_updateAppend_self, optAppend_eq]
    simp
  · rw [alookup_updateAppend_ne m v (fun hh => h hh.symm)]
    simp [optAppend_eq, h]

theorem alookup_ingest_raw (st : RawState) (p : Price) (bq : BaseQuote) :
    alookup bq (ingest st p).raw =
      optAppend (alookup bq st.raw) (contribsOne bq p) := by
  simp only [ingest, contribsOne]
  by_cases hr : p.amount.number = 0
  · rw [if_neg (by simp [hr]), alookup_updateAppend]
    simp [hr]
  · rw [if_pos (by simp [hr]), alookup_updateAppend, alookup_updateAppend,
      optAppend_assoc]
    congr 1
    by_cases h1 : (p.currency, p.amount.currency) = bq <;>
      by_cases h2 : (p.amount.currency, p.currency) = bq <;> simp [h1, h2, hr]

theorem alookup_foldl_raw (entries : List Price) :
    ∀ (st : RawState) (bq : BaseQuote),
      alookup bq (entries.foldl ingest st).raw =
        optAppend (alookup bq st.raw) (contribs bq entries) := by
  induction entries with
  | nil =>
    intro st bq
    simp [contribs, optAppend_eq]
  | cons p rest ih =>
    intro st bq
    simp only [List.foldl_cons, contribs]
    rw [ih, alookup_ingest_raw, optAppend_assoc]

theorem alookup_map_values (m : List (BaseQuote × List PricePoint))
    (f : List PricePoint → List PricePoint) (k : BaseQuote) :
    alookup k (m.map fun kl => (kl.1, f kl.2)) = (alookup k m).map f := by
  induction m with
  | nil => simp [alookup]
  | cons kv rest ih =>
    by_cases h : kv.1 = k <;> simp [alookup, h, ih]

/-- The stored series of `FavaPriceMap` is exactly the per-day collapse of the
contributions that ingestion appended for that pair, and a pair is present
iff some entry contributed to it. -/
theorem map_lookup (es : List Price) (bq : BaseQuote) :
    alookup bq (FavaPriceMap.ofEntries es)._map =
      if contribs bq es = [] then none
      else some (keep_last_per_day (contribs bq es)) := by
  unfold FavaPriceMap.ofEntries
  rw [alookup_map_values, alookup_foldl_raw]
  simp only [alookup, optAppend_eq]
  by_cases h : contribs bq es = [] <;> simp [h]

end Fava

namespace Fava

/-! ### Counter lemmas -/

def optCount (o : Option Nat) (n : Nat) : Option Nat :=
  if n = 0 then o else some (o.getD 0 + n)

theorem optCount_assoc (o : Option Nat) (a b : Nat) :
    optCount (optCount o a) b = optCount o (a + b) := by
  by_cases ha : a = 0
  · simp [optCount, ha]
  · by_cases hb : b = 0 <;>
      simp [optCount, ha, hb, Nat.add_assoc]

theorem alookup_incrCount (m : List (BaseQuote × Nat)) (k k2 : BaseQuote) :
    alookup k2 (incrCount m k) =
      optCount (alookup k2 m) (if k = k2 then 1 else 0) := by
  induction m with
  | nil =>
    by_cases h : k = k2 <;> simp [alookup, incrCount, optCount, h]
  | cons kv rest ih =>
    by_cases hk : kv.1 = k
    · by_cases h : k = k2
      · subst h
        simp [alookup, incrCount, optCount, hk, Nat.add_comm]
      · have hne : ¬kv.1 = k2 := by rw [hk]; exact h
        simp [alookup, incrCount, optCount, hk, hne, h]
    · simp only [incrCount, if_neg hk]
      by_cases hk2 : kv.1 = k2
      · have : ¬k = k2 := by rw [← hk2]; exact fun hh => hk hh.symm
        simp [alookup, hk2, this, optCount]
      · simp [alookup, hk2, ih]

theorem ingest_counts (st : RawState) (p : Price) :
    (ingest st p).counts =
      incrCount st.counts (p.currency, p.amount.currency) := rfl

theorem ingest_currencies (st : RawState) (p : Price) :
    (ingest st p).currencies =
      addCurrency (addCurrency st.currencies p.currency)
        p.amount.currency := rfl

theorem alookup_ingest_counts (st : RawState) (p : Price) (bq : BaseQuote) :
    alookup bq (ingest st p).counts =
      optCount (alookup bq st.counts)
        (if (p.currency, p.amount.currency) = bq then 1 else 0) := by
  rw [ingest_counts]
  exact alookup_incrCount _ _ _

theorem alookup_foldl_counts (entries : List Price) :
    ∀ (st : RawState) (bq : BaseQuote),
      alookup bq (entries.foldl ingest st).counts =
        optCount (alookup bq st.counts) (obsCount bq entries) := by
  induction entries with
  | nil =>
    intro st bq
    simp [obsCount, optCount]
  | cons p rest ih =>
    intro st bq
    simp only [List.foldl_cons]
    rw [ih, alookup_ingest_counts, optCount_assoc]
    have : obsCount bq (p :: rest) =
        (if (p.currency, p.amount.currency) = bq then 1 else 0) +
          obsCount bq rest := by
      simp only [obsCount, List.countP_cons]
      by_cases h : (p.currency, p.amount.currency) = bq <;>
        simp [h, Nat.add_comm]
    rw [this]

/-- The count stored for a pair after construction is the number of direct
observations of that pair. -/
theorem countGet_ofEntries (entries : List Price) (bq : BaseQuote) :
    countGet (entries.foldl ingest ⟨[], [], []⟩).counts bq =
      obsCount bq entries := by
  rw [countGet, alookup_foldl_counts]
  simp only [alookup, optCount]
  by_cases h : obsCount bq entries = 0 <;> simp [h]

theorem mem_incrCount {m : List (BaseQuote × Nat)} {k : BaseQuote}
    {b : BaseQuote × Nat} (hb : b ∈ incrCount m k) : b.1 = k ∨ b ∈ m := by
  induction m with
  | nil =>
    simp only [incrCount, List.mem_singleton] at hb
    exact Or.inl (by rw [hb])
  | cons kv rest ih =>
    by_cases hk : kv.1 = k
    · rw [incrCount, if_pos hk] at hb
      rcases List.mem_cons.1 hb with h | h
      · exact Or.inl (by rw [h]; exact hk)
      · exact Or.inr (List.mem_cons_of_mem _ h)
    · rw [incrCount, if_neg hk] at hb
      rcases List.mem_cons.1 hb with h | h
      · exact Or.inr (h ▸ List.mem_cons_self _ _)
      · rcases ih h with h2 | h2
        · exact Or.inl h2
        · exact Or.inr (List.mem_cons_of_mem _ h2)

theorem incrCount_keys_unique (m : List (BaseQuote × Nat)) (k : BaseQuote)
    (h : m.Pairwise fun a b => a.1 ≠ b.1) :
    (incrCount m k).Pairwise fun a b => a.1 ≠ b.1 := by
  induction m with
  | nil => simp [incrCount]
  | cons kv rest ih =>
    rcases List.pairwise_cons.1 h with ⟨hhead, htail⟩
    by_cases hk : kv.1 = k
    · rw [incrCount, if_pos hk]
      exact List.pairwise_cons.2 ⟨hhead, htail⟩
    · rw [incrCount, if_neg hk]
      refine List.pairwise_cons.2 ⟨?_, ih htail⟩
      intro b hb
      rcases mem_incrCount hb with hb2 | hb2
      · rw [hb2]; exact hk
      · exact hhead b hb2

theorem counts_keys_unique (entries : List Price) :
    ∀ st : RawState, (st.counts.Pairwise fun a b => a.1 ≠ b.1) →
      ((entries.foldl ingest st).counts.Pairwise fun a b => a.1 ≠ b.1) := by
  induction entries with
  | nil => intro st h; exact h
  | cons p rest ih =>
    intro st h
    simp only [List.foldl_cons]
    refine ih _ ?_
    rw [ingest_counts]
    exact incrCount_keys_unique _ _ h

theorem alookup_of_mem {m : List (BaseQuote × Nat)}
    (hu : m.Pairwise fun a b => a.1 ≠ b.1) {kv : BaseQuote × Nat}
    (hmem : kv ∈ m) : alookup kv.1 m = some kv.2 := by
  induction m with
  | nil => cases hmem
  | cons hd rest ih =>
    rcases List.pairwise_cons.1 hu with ⟨hhead, htail⟩
    rcases List.mem_cons.1 hmem with h | h
    · subst h
      simp [alookup]
    · have hne : ¬hd.1 = kv.1 := hhead kv h
      simp only [alookup, if_neg hne]
      exact ih htail h

end Fava

namespace Fava

/-! ### Lemmas about the per-day collapse -/

theorem keep_last_go_ne_nil (a : PricePoint) (l : List PricePoint) :
    keep_last_go a l ≠ [] := by
  induction l generalizing a with
  | nil => simp [keep_last_go]
  | cons b t ih =>
    rw [keep_last_go]
    by_cases h : b.1 > a.1
    · simp [h]
    · simp only [if_neg h]
      exact ih b

theorem keep_last_ne_nil {l : List PricePoint} (h : l ≠ []) :
    keep_last_per_day l ≠ [] := by
  cases l with
  | nil => exact absurd rfl h
  | cons a t => exact keep_last_go_ne_nil a t

theorem mem_keep_last_go {a : PricePoint} {l : List PricePoint}
    {x : PricePoint} (hx : x ∈ keep_last_go a l) : x = a ∨ x ∈ l := by
  induction l generalizing a with
  | nil =>
    rw [keep_last_go, List.mem_singleton] at hx
    exact Or.inl hx
  | cons b t ih =>
    rw [keep_last_go] at hx
    by_cases h : b.1 > a.1
    · rw [if_pos h] at hx
      rcases List.mem_cons.1 hx with h2 | h2
      · exact Or.inl h2
      · rcases ih h2 with h3 | h3
        · exact Or.inr (h3 ▸ List.mem_cons_self _ _)
        · exact Or.inr (List.mem_cons_of_mem _ h3)
    · rw [if_neg h] at hx
      rcases ih hx with h3 | h3
      · exact Or.inr (h3 ▸ List.mem_cons_self _ _)
      · exact Or.inr (List.mem_cons_of_mem _ h3)

theorem keep_last_go_sorted (l : List PricePoint) :
    ∀ a : PricePoint, ((a :: l).Pairwise fun p q => p.1 ≤ q.1) →
      (keep_last_go a l).Pairwise fun p q => p.1 < q.1 := by
  induction l with
  | nil => intro a _; simp [keep_last_go]
  | cons b t ih =>
    intro a hs
    rcases List.pairwise_cons.1 hs with ⟨_, hs2⟩
    rcases List.pairwise_cons.1 hs2 with ⟨hb, _⟩
    rw [keep_last_go]
    by_cases h : b.1 > a.1
    · rw [if_pos h]
      refine List.pairwise_cons.2 ⟨?_, ih b hs2⟩
      intro x hx
      rcases mem_keep_last_go hx with h2 | h2
      · rw [h2]; exact h
      · have h4 : b.1 ≤ x.1 := hb x h2
        show a.1 < x.1
        omega
    · rw [if_neg h]
      exact ih b hs2

theorem keep_last_sorted {l : List PricePoint}
    (h : l.Pairwise fun p q => p.1 ≤ q.1) :
    (keep_last_per_day l).Pairwise fun p q => p.1 < q.1 := by
  cases l with
  | nil => simp [keep_last_per_day]
  | cons a t => exact keep_last_go_sorted t a h

theorem keep_last_go_filter (d : Nat) :
    ∀ (l : List PricePoint) (a : PricePoint),
      ((a :: l).Pairwise fun p q => p.1 ≤ q.1) →
      (keep_last_go a l).filter (fun p => decide (p.1 = d)) =
        (((a :: l).filter fun p => decide (p.1 = d)).getLast?).toList := by
  intro l
  induction l with
  | nil =>
    intro a _
    by_cases h : a.1 = d <;> simp [keep_last_go, h]
  | cons b t ih =>
    intro a hs
    rcases List.pairwise_cons.1 hs with ⟨ha, hs2⟩
    rcases List.pairwise_cons.1 hs2 with ⟨hb, _⟩
    rw [keep_last_go]
    by_cases hgt : b.1 > a.1
    · rw [if_pos hgt]
      by_cases had : a.1 = d
      · have hnone : ∀ x ∈ b :: t, ¬(x.1 = d) := by
          intro x hx
          rcases List.mem_cons.1 hx with h2 | h2
          · subst h2
            omega
          · have h4 : b.1 ≤ x.1 := hb x h2
            omega
        have hf2 : ((b :: t).filter fun p => decide (p.1 = d)) = [] :=
          List.filter_eq_nil_iff.2 (by simpa using hnone)
        have hf3 : (keep_last_go b t).filter (fun p => decide (p.1 = d)) = [] := by
          rw [ih b hs2, hf2]
          simp
        rw [List.filter_cons_of_pos (by simpa using had), hf3,
          List.filter_cons_of_pos (by simpa using had), hf2]
        simp
      · rw [List.filter_cons_of_neg (by simpa using had),
          List.filter_cons_of_neg (by simpa using had)]
        exact ih b hs2
    · rw [if_neg hgt]
      have hab : a.1 = b.1 := by
        have h4 : a.1 ≤ b.1 := ha b (List.mem_cons_self _ _)
        omega
      by_cases had : a.1 = d
      · have hbd : b.1 = d := by omega
        have e1 : ((a :: b :: t).filter fun p => decide (p.1 = d)) =
            a :: b :: (t.filter fun p => decide (p.1 = d)) := by
          rw [List.filter_cons_of_pos (by simpa using had),
            List.filter_cons_of_pos (by simpa using hbd)]
        have e2 : ((b :: t).filter fun p => decide (p.1 = d)) =
            b :: (t.filter fun p => decide (p.1 = d)) := by
          rw [List.filter_cons_of_pos (by simpa using hbd)]
        rw [ih b hs2, e1, e2, List.getLast?_cons_cons]
      · have e1 : ((a :: b :: t).filter fun p => decide (p.1 = d)) =
            (b :: t).filter fun p => decide (p.1 = d) := by
          rw [List.filter_cons_of_neg (by simpa using had)]
        rw [ih b hs2, e1]

theorem keep_last_filter {l : List PricePoint}
    (h : l.Pairwise fun p q => p.1 ≤ q.1) (d : Nat) :
    (keep_last_per_day l).filter (fun p => decide (p.1 = d)) =
      ((l.filter fun p => decide (p.1 = d)).getLast?).toList := by
  cases l with
  | nil => simp [keep_last_per_day]
  | cons a t => exact keep_last_go_filter d t a h

/-! ### Lemmas about contributions -/

theorem contribs_append (bq : BaseQuote) (l1 l2 : List Price) :
    contribs bq (l1 ++ l2) = contribs bq l1 ++ contribs bq l2 := by
  induction l1 with
  | nil => simp [contribs]
  | cons p t ih => simp [contribs, ih]

theorem mem_contribsOne_date {bq : BaseQuote} {p : Price} {x : PricePoint}
    (hx : x ∈ contribsOne bq p) : x.1 = p.date := by
  rw [contribsOne] at hx
  rcases List.mem_append.1 hx with h | h <;>
  · split at h <;> simp_all

theorem mem_contribs_date {bq : BaseQuote} {es : List Price} {x : PricePoint}
    (hx : x ∈ contribs bq es) : ∃ q ∈ es, x.1 = q.date := by
  induction es with
  | nil => cases hx
  | cons p t ih =>
    rcases List.mem_append.1 hx with h | h
    · exact ⟨p, List.mem_cons_self _ _, mem_contribsOne_date h⟩
    · rcases ih h with ⟨q, hq, hd⟩
      exact ⟨q, List.mem_cons_of_mem _ hq, hd⟩

theorem contribsOne_sorted (bq : BaseQuote) (p : Price) :
    (contribsOne bq p).Pairwise fun x y => x.1 ≤ y.1 := by
  rw [contribsOne]
  split <;> split <;> simp

theorem contribs_sorted {bq : BaseQuote} {es : List Price}
    (hs : es.Pairwise fun a b => a.date ≤ b.date) :
    (contribs bq es).Pairwise fun x y => x.1 ≤ y.1 := by
  induction es with
  | nil => simp [contribs]
  | cons p t ih =>
    rcases List.pairwise_cons.1 hs with ⟨hp, ht⟩
    rw [contribs]
    refine List.pairwise_append.2 ⟨contribsOne_sorted bq p, ih ht, ?_⟩
    intro x hx y hy
    rcases mem_contribs_date hy with ⟨q, hq, hd⟩
    rw [mem_contribsOne_date hx, hd]
    exact hp q hq

end Fava

namespace Fava

/-! ### Lemmas about the bisect loop -/

theorem getD_lt_length {a : List Nat} {i : Nat} (h : i < a.length) :
    a.getD i 0 = a.get ⟨i, h⟩ := by
  simp [List.getD_eq_getElem?_getD, List.getElem?_eq_getElem, h]

theorem getD_map_fst (l : List PricePoint) {i : Nat} (h : i < l.length) :
    (l.map Prod.fst).getD i 0 = (l.get ⟨i, h⟩).1 := by
  have h2 : i < (l.map Prod.fst).length := by simpa using h
  rw [getD_lt_length h2]
  simp

theorem sorted_getD_mono {a : List Nat} (hs : a.Pairwise (· ≤ ·)) {i j : Nat}
    (hij : i ≤ j) (hj : j < a.length) : a.getD i 0 ≤ a.getD j 0 := by
  have hi : i < a.length := lt_of_le_of_lt hij hj
  rw [getD_lt_length hi, getD_lt_length hj]
  rcases Nat.lt_or_ge i j with h | h
  · exact List.pairwise_iff_get.1 hs ⟨i, hi⟩ ⟨j, hj⟩ h
  · have : i = j := le_antisymm hij h
    subst this
    exact le_refl _

theorem bisect_loop_spec (a : List Nat) (x : Nat) :
    ∀ (fuel lo hi : Nat), hi - lo ≤ fuel → lo ≤ hi → hi ≤ a.length →
      a.Pairwise (· ≤ ·) →
      (∀ i, i < lo → a.getD i 0 ≤ x) →
      (∀ i, hi ≤ i → i < a.length → x < a.getD i 0) →
      lo ≤ bisect_loop a x fuel lo hi ∧ bisect_loop a x fuel lo hi ≤ hi ∧
        (∀ i, i < bisect_loop a x fuel lo hi → a.getD i 0 ≤ x) ∧
        (∀ i, bisect_loop a x fuel lo hi ≤ i → i < a.length →
          x < a.getD i 0) := by
  intro fuel
  induction fuel with
  | zero =>
    intro lo hi hfuel hle hlen _ hlo hhi
    have : lo = hi := by omega
    subst this
    rw [bisect_loop]
    exact ⟨le_refl _, le_refl _, hlo, fun i h1 h2 => hhi i h1 h2⟩
  | succ fuel ih =>
    intro lo hi hfuel hle hlen hs hlo hhi
    rw [bisect_loop]
    by_cases hlt : lo < hi
    · rw [if_pos hlt]
      simp only []
      by_cases hx : x < a.getD ((lo + hi) / 2) 0
      · rw [if_pos hx]
        have hmid1 : lo ≤ (lo + hi) / 2 := by omega
        have hmid2 : (lo + hi) / 2 < hi := by omega
        have hup : ∀ i, (lo + hi) / 2 ≤ i → i < a.length →
            x < a.getD i 0 := by
          intro i h1 h2
          exact lt_of_lt_of_le hx (sorted_getD_mono hs h1 h2)
        rcases ih lo ((lo + hi) / 2) (by omega) hmid1 (by omega) hs hlo hup
          with ⟨c1, c2, c3, c4⟩
        exact ⟨c1, le_trans c2 (le_of_lt hmid2), c3, c4⟩
      · rw [if_neg hx]
        have hmid1 : lo ≤ (lo + hi) / 2 := by omega
        have hmid2 : (lo + hi) / 2 < hi := by omega
        have hdown : ∀ i, i < (lo + hi) / 2 + 1 → a.getD i 0 ≤ x := by
          intro i h1
          have h3 : a.getD i 0 ≤ a.getD ((lo + hi) / 2) 0 :=
            sorted_getD_mono hs (by omega) (by omega)
          omega
        rcases ih ((lo + hi) / 2 + 1) hi (by omega) (by omega) hlen hs hdown
          hhi with ⟨c1, c2, c3, c4⟩
        exact ⟨by omega, c2, c3, c4⟩
    · rw [if_neg hlt]
      have : lo = hi := by omega
      subst this
      exact ⟨le_refl _, le_refl _, hlo, fun i h1 h2 => hhi i h1 h2⟩

theorem bisect_loop_le (a : List Nat) (x : Nat) :
    ∀ (fuel lo hi : Nat), lo ≤ hi →
      lo ≤ bisect_loop a x fuel lo hi ∧ bisect_loop a x fuel lo hi ≤ hi := by
  intro fuel
  induction fuel with
  | zero =>
    intro lo hi hle
    rw [bisect_loop]
    exact ⟨le_refl _, hle⟩
  | succ fuel ih =>
    intro lo hi hle
    rw [bisect_loop]
    by_cases hlt : lo < hi
    · rw [if_pos hlt]
      simp only []
      by_cases hx : x < a.getD ((lo + hi) / 2) 0
      · rw [if_pos hx]
        rcases ih lo ((lo + hi) / 2) (by omega) with ⟨c1, c2⟩
        exact ⟨c1, by omega⟩
      · rw [if_neg hx]
        rcases ih ((lo + hi) / 2 + 1) hi (by omega) with ⟨c1, c2⟩
        exact ⟨by omega, c2⟩
    · rw [if_neg hlt]
      exact ⟨le_refl _, hle⟩

theorem bisect_le_length (l : List PricePoint) (x : Nat) :
    bisect l x ≤ l.length :=
  (bisect_loop_le (l.map Prod.fst) x l.length 0 l.length (Nat.zero_le _)).2

/-- Characterisation of `bisect` on a date-sorted series: every point before
the returned index has date at most `x` and every point from it on has a
later date. -/
theorem bisect_spec {l : List PricePoint}
    (hs : l.Pairwise fun p q => p.1 ≤ q.1) (x : Nat) :
    bisect l x ≤ l.length ∧
      (∀ (i : Nat) (h : i < l.length), i < bisect l x →
        (l.get ⟨i, h⟩).1 ≤ x) ∧
      (∀ (i : Nat) (h : i < l.length), bisect l x ≤ i →
        x < (l.get ⟨i, h⟩).1) := by
  have hsm : (l.map Prod.fst).Pairwise (· ≤ ·) :=
    List.pairwise_map.2 hs
  rcases bisect_loop_spec (l.map Prod.fst) x l.length 0 l.length
    (by simp) (Nat.zero_le _) (by simp) hsm (by omega)
    (by intro i h1 h2; rw [List.length_map] at h2; omega)
    with ⟨_, c2, c3, c4⟩
  refine ⟨by simpa using c2, ?_, ?_⟩
  · intro i h hi
    have := c3 i hi
    rwa [getD_map_fst l h] at this
  · intro i h hi
    have := c4 i hi (by simpa using h)
    rwa [getD_map_fst l h] at this

end Fava

namespace Fava

/-! ### Evaluation lemmas for `get_price_point` -/

/-- Evaluation of `get_price_point` when a direct series exists: the result
only depends on that series, never on the fallback loop or the fuel. -/
theorem gpp_fuel_direct (m : FavaPriceMap) (fuel : Nat) {bq : BaseQuote}
    (hne : ¬bq.1 = bq.2) {l : List PricePoint}
    (hl : alookup bq m._map = some l) (date : Option Nat) :
    get_price_point_fuel m (fuel + 1) bq date =
      match date with
      | none => l.getLast?.map fun p => (some p.1, some p.2)
      | some d =>
        if bisect l d = 0 then some (none, none)
        else (l.get? (bisect l d - 1)).map fun p => (some p.1, some p.2) := by
  rw [get_price_point_fuel, if_neg hne, hl]

theorem try_conversion_congr (m : FavaPriceMap)
    (r1 r2 : BaseQuote → Option Nat → Option PriceResult)
    (base quote : Currency) (date : Option Nat)
    (h : ∀ (bq : BaseQuote) (d : Option Nat), ¬bq.1 = bq.2 →
      (∃ l, alookup bq m._map = some l) → r1 bq d = r2 bq d) :
    ∀ cs : List Currency,
      try_conversion m r1 base quote date cs =
        try_conversion m r2 base quote date cs := by
  intro cs
  induction cs with
  | nil => rfl
  | cons c rest ih =>
    rw [try_conversion, try_conversion]
    by_cases hskip : c = base ∨ c = quote
    · rw [if_pos hskip, if_pos hskip]
      exact ih
    · rw [if_neg hskip, if_neg hskip]
      push_neg at hskip
      rcases h1 : alookup (base, c) m._map with _ | pl1 <;>
        rcases h2 : alookup (c, quote) m._map with _ | pl2 <;>
          simp only [ih]
      cases date with
      | none =>
        rcases hg1 : pl1.getLast? with _ | p1 <;>
          rcases hg2 : pl2.getLast? with _ | p2 <;> simp only []
        by_cases hcmp : p1.1 < p2.1
        · rw [if_pos hcmp, if_pos hcmp]
          exact h (c, quote) (some p1.1) (by simpa using hskip.2.symm ∘ Eq.symm)
            ⟨pl2, h2⟩
        · rw [if_neg hcmp, if_neg hcmp]
          exact h (base, c) (some p2.1) (by simpa using hskip.1 ∘ Eq.symm)
            ⟨pl1, h1⟩
      | some d =>
        simp only []
        by_cases hz : bisect pl1 d = 0
        · rw [if_pos hz, if_pos hz]
        · rw [if_neg hz, if_neg hz]
          rcases hp : pl1.get? (bisect pl1 d - 1) with _ | p1
          · rfl
          · exact h (c, quote) (some p1.1)
              (by simpa using hskip.2.symm ∘ Eq.symm) ⟨pl2, h2⟩

/-- Fuel independence: fuel 2 already computes the fixed point of the
recursion, i.e. the fallback makes at most one recursive call and that call
always lands in the direct branch. -/
theorem get_price_point_fuel_indep (m : FavaPriceMap) (bq : BaseQuote)
    (date : Option Nat) (fuel : Nat) :
    get_price_point_fuel m (fuel + 2) bq date =
      get_price_point_fuel m 2 bq date := by
  show get_price_point_fuel m ((fuel + 1) + 1) bq date =
    get_price_point_fuel m (1 + 1) bq date
  rw [get_price_point_fuel, get_price_point_fuel]
  by_cases hbq : bq.1 = bq.2
  · rw [if_pos hbq, if_pos hbq]
  · rw [if_neg hbq, if_neg hbq]
    rcases h : alookup bq m._map with _ | l
    · simp only []
      refine try_conversion_congr m _ _ _ _ date ?_ m._currencies
      intro bq2 d hne2 ⟨l2, hl2⟩
      show get_price_point_fuel m (fuel + 1) bq2 d =
        get_price_point_fuel m (0 + 1) bq2 d
      rw [gpp_fuel_direct m fuel hne2 hl2, gpp_fuel_direct m 0 hne2 hl2]
    · rfl

/-- The direct branch never produces a runtime error on a non-empty
series. -/
theorem direct_isSome (m : FavaPriceMap) (fuel : Nat) {bq : BaseQuote}
    (hne : ¬bq.1 = bq.2) {l : List PricePoint}
    (hl : alookup bq m._map = some l) (hnil : l ≠ []) (date : Option Nat) :
    (get_price_point_fuel m (fuel + 1) bq date).isSome := by
  rw [gpp_fuel_direct m fuel hne hl]
  cases date with
  | none =>
    rcases hg : l.getLast? with _ | p
    · exact absurd (List.getLast?_isSome.2 hnil) (by rw [hg]; simp)
    · simp
  | some d =>
    simp only []
    by_cases hz : bisect l d = 0
    · rw [if_pos hz]
      simp
    · rw [if_neg hz]
      have hle : bisect l d ≤ l.length := bisect_le_length l d
      have hlt : bisect l d - 1 < l.length := by omega
      rcases hp : l.get? (bisect l d - 1) with _ | p
      · exact absurd (List.get?_eq_none.1 hp) (by omega)
      · simp

theorem try_conversion_isSome (m : FavaPriceMap)
    (hmap : ∀ (bq : BaseQuote) (l : List PricePoint),
      alookup bq m._map = some l → l ≠ [])
    (base quote : Currency) (date : Option Nat) :
    ∀ cs : List Currency,
      (try_conversion m (get_price_point_fuel m 1) base quote date
        cs).isSome := by
  intro cs
  induction cs with
  | nil => simp [try_conversion]
  | cons c rest ih =>
    rw [try_conversion]
    by_cases hskip : c = base ∨ c = quote
    · rw [if_pos hskip]
      exact ih
    · rw [if_neg hskip]
      push_neg at hskip
      rcases h1 : alookup (base, c) m._map with _ | pl1 <;>
        rcases h2 : alookup (c, quote) m._map with _ | pl2 <;>
          simp only [ih]
      have hnil1 : pl1 ≠ [] := hmap _ _ h1
      have hnil2 : pl2 ≠ [] := hmap _ _ h2
      have hcq : ¬((c, quote) : BaseQuote).1 = ((c, quote) : BaseQuote).2 :=
        by simpa using hskip.2
      have hbc : ¬((base, c) : BaseQuote).1 = ((base, c) : BaseQuote).2 :=
        by simpa using fun hh => hskip.1 hh.symm
      cases date with
      | none =>
        rcases hg1 : pl1.getLast? with _ | p1
        · exact absurd (List.getLast?_isSome.2 hnil1) (by rw [hg1]; simp)
        · rcases hg2 : pl2.getLast? with _ | p2
          · exact absurd (List.getLast?_isSome.2 hnil2) (by rw [hg2]; simp)
          · simp only []
            by_cases hcmp : p1.1 < p2.1
            · rw [if_pos hcmp]
              exact direct_isSome m 0 hcq h2 hnil2 _
            · rw [if_neg hcmp]
              exact direct_isSome m 0 hbc h1 hnil1 _
      | some d =>
        simp only []
        by_cases hz : bisect pl1 d = 0
        · rw [if_pos hz]
          simp
        · rw [if_neg hz]
          have hle : bisect pl1 d ≤ pl1.length := bisect_le_length pl1 d
          have hlt : bisect pl1 d - 1 < pl1.length := by omega
          rcases hp : pl1.get? (bisect pl1 d - 1) with _ | p1
          · exact absurd (List.get?_eq_none.1 hp) (by omega)
          · exact direct_isSome m 0 hcq h2 hnil2 _

/-- Every series stored by construction is non-empty. -/
theorem map_values_ne_nil (es : List Price) (bq : BaseQuote)
    {l : List PricePoint}
    (hl : alookup bq (FavaPriceMap.ofEntries es)._map = some l) : l ≠ [] := by
  rw [map_lookup] at hl
  by_cases h : contribs bq es = []
  · rw [if_pos h] at hl
    cases hl
  · rw [if_neg h] at hl
    rw [← Option.some_inj.1 hl]
    exact keep_last_ne_nil h

end Fava

namespace Fava

/-! ### Further helper lemmas -/

theorem mem_contribs {bq : BaseQuote} {es : List Price} {x : PricePoint} :
    x ∈ contribs bq es ↔ ∃ q ∈ es, x ∈ contribsOne bq q := by
  induction es with
  | nil => simp [contribs]
  | cons p t ih =>
    rw [contribs, List.mem_append, ih]
    constructor
    · rintro (h | ⟨q, hq, hx⟩)
      · exact ⟨p, List.mem_cons_self _ _, h⟩
      · exact ⟨q, List.mem_cons_of_mem _ hq, hx⟩
    · rintro ⟨q, hq, hx⟩
      rcases List.mem_cons.1 hq with h | h
      · exact Or.inl (h ▸ hx)
      · exact Or.inr ⟨q, h, hx⟩

/-- If the day-`d` slice of a strictly sorted series is exactly `[(d, r)]`,
then `bisect` finds precisely that point. -/
theorem bisect_find {l : List PricePoint}
    (hsl : l.Pairwise fun p q => p.1 < q.1) {d : Nat} {r : ℚ}
    (hf : l.filter (fun p => decide (p.1 = d)) = [(d, r)]) :
    ¬bisect l d = 0 ∧ l.get? (bisect l d - 1) = some (d, r) := by
  have hmem : (d, r) ∈ l := by
    refine List.mem_of_mem_filter (p := fun p => decide (p.1 = d)) ?_
    rw [hf]
    exact List.mem_singleton.2 rfl
  rcases List.mem_iff_get.1 hmem with ⟨i0, hget⟩
  have hsle : l.Pairwise fun p q => p.1 ≤ q.1 :=
    hsl.imp fun h => le_of_lt h
  rcases bisect_spec hsle d with ⟨hj, hlow, hhigh⟩
  have hi0 : (i0 : Nat) < bisect l d := by
    by_contra hcon
    have := hhigh i0 i0.isLt (by omega)
    rw [hget] at this
    exact lt_irrefl d this
  have h1 : 1 ≤ bisect l d := by omega
  have hj1 : bisect l d - 1 < l.length := by
    have := i0.isLt
    omega
  have hle : (l.get ⟨bisect l d - 1, hj1⟩).1 ≤ d := hlow _ hj1 (by omega)
  have hi0eq : (i0 : Nat) = bisect l d - 1 := by
    by_contra hcon
    have hlt : (i0 : Nat) < bisect l d - 1 := by omega
    have := List.pairwise_iff_get.1 hsl i0 ⟨bisect l d - 1, hj1⟩ hlt
    rw [hget] at this
    omega
  constructor
  · omega
  · rw [List.get?_eq_get hj1]
    congr 1
    rw [← hget]
    congr 1
    exact Fin.ext hi0eq.symm

/-- Strict sortedness of every stored series (sorted input). -/
theorem series_sorted {es : List Price}
    (hs : es.Pairwise fun a b => a.date ≤ b.date) {bq : BaseQuote}
    {l : List PricePoint}
    (hl : alookup bq (FavaPriceMap.ofEntries es)._map = some l) :
    l.Pairwise fun p q => p.1 < q.1 := by
  rw [map_lookup] at hl
  by_cases h : contribs bq es = []
  · rw [if_pos h] at hl
    cases hl
  · rw [if_neg h] at hl
    rw [← Option.some_inj.1 hl]
    exact keep_last_sorted (contribs_sorted hs)

/-- Construction never yields a map on which lookups raise. -/
theorem gpp_ofEntries_isSome (es : List Price) (bq : BaseQuote)
    (date : Option Nat) :
    ((FavaPriceMap.ofEntries es).get_price_point bq date).isSome := by
  rw [FavaPriceMap.get_price_point]
  show (get_price_point_fuel (FavaPriceMap.ofEntries es) (1 + 1)
    bq date).isSome
  by_cases hbq : bq.1 = bq.2
  · rw [get_price_point_fuel, if_pos hbq]
    simp
  · rcases h : alookup bq (FavaPriceMap.ofEntries es)._map with _ | l
    · rw [get_price_point_fuel, if_neg hbq, h]
      exact try_conversion_isSome _ (fun bq2 l2 hl2 =>
        map_values_ne_nil es bq2 hl2) _ _ _ _
    · exact direct_isSome _ 1 hbq h (map_values_ne_nil es bq h) date

/-- Equal observation counts exclude a pair from the forward set. -/
theorem not_forward_of_eq_counts (es : List Price) {A B : Currency}
    (h : obsCount (A, B) es = obsCount (B, A) es) :
    ¬(A, B) ∈ (FavaPriceMap.ofEntries es)._forward_pairs := by
  intro hmem
  simp only [FavaPriceMap.ofEntries] at hmem
  rcases List.mem_filterMap.1 hmem with ⟨bqc, hbqc, hif⟩
  by_cases hc : countGet (List.foldl ingest ⟨[], [], []⟩ es).counts
      (bqc.1.2, bqc.1.1) < bqc.2
  · rw [if_pos hc] at hif
    have hbq1 : bqc.1 = (A, B) := Option.some_inj.1 hif
    have hu : ((List.foldl ingest ⟨[], [], []⟩ es).counts.Pairwise
        fun a b => a.1 ≠ b.1) :=
      counts_keys_unique es ⟨[], [], []⟩ (by simp)
    have hv : alookup bqc.1 (List.foldl ingest ⟨[], [], []⟩ es).counts =
        some bqc.2 := alookup_of_mem hu hbqc
    have hv2 : countGet (List.foldl ingest ⟨[], [], []⟩ es).counts bqc.1 =
        bqc.2 := by
      rw [countGet, hv]
      rfl
    rw [hbq1] at hv2
    rw [countGet_ofEntries] at hv2
    rw [hbq1] at hc
    simp only [] at hc
    rw [countGet_ofEntries] at hc
    omega
  · rw [if_neg hc] at hif
    cases hif

/-- Membership in `commodity_pairs`: the forward pairs plus the reversed
operating-currency pairs. -/
theorem mem_commodity_pairs (m : FavaPriceMap) (oc : List Currency)
    (p : BaseQuote) :
    p ∈ m.commodity_pairs oc ↔
      p ∈ m._forward_pairs ∨
        ((p.2, p.1) ∈ m._forward_pairs ∧ p.1 ∈ oc ∧ p.2 ∈ oc) := by
  rw [FavaPriceMap.commodity_pairs]
  simp only [List.mem_mergeSort, List.mem_append, List.mem_filterMap]
  constructor
  · rintro (h | ⟨bq, hbq, hif⟩)
    · exact Or.inl h
    · by_cases hc : bq.1 ∈ oc ∧ bq.2 ∈ oc
      · rw [if_pos hc] at hif
        have hp : p = (bq.2, bq.1) := (Option.some_inj.1 hif).symm
        refine Or.inr ⟨?_, ?_, ?_⟩
        · rw [hp]
          exact hbq
        · rw [hp]
          exact hc.2
        · rw [hp]
          exact hc.1
      · rw [if_neg hc] at hif
        cases hif
  · rintro (h | ⟨hrev, h1, h2⟩)
    · exact Or.inl h
    · refine Or.inr ⟨(p.2, p.1), hrev, ?_⟩
      rw [if_pos ⟨h2, h1⟩]

theorem bqLE_total (a b : BaseQuote) : (bqLE a b || bqLE b a) = true := by
  rw [bqLE, bqLE]
  rcases lt_trichotomy a.1 b.1 with h | h | h
  · simp [h]
  · rcases le_total a.2 b.2 with h2 | h2 <;> simp [h, h2]
  · simp [h]

theorem bqLE_trans (a b c : BaseQuote) (h1 : bqLE a b = true)
    (h2 : bqLE b c = true) : bqLE a c = true := by
  simp only [bqLE, Bool.or_eq_true, Bool.and_eq_true, decide_eq_true_eq]
    at h1 h2 ⊢
  rcases h1 with h1 | ⟨h1e, h1le⟩
  · rcases h2 with h2 | ⟨h2e, _⟩
    · exact Or.inl (lt_trans h1 h2)
    · exact Or.inl (h2e ▸ h1)
  · rcases h2 with h2 | ⟨h2e, h2le⟩
    · exact Or.inl (h1e ▸ h2)
    · exact Or.inr ⟨h1e.trans h2e, le_trans h1le h2le⟩

end Fava

namespace Fava

/-! ### Example inputs used by concrete theorems -/

/-- Entries with only an `(A,C)` and a `(C,B)` observation (plus their
synthetic inverses): the triangulation scenario. -/
def triEntries : List Price := [⟨1, "A", ⟨"C", 2⟩⟩, ⟨1, "C", ⟨"B", 3⟩⟩]

/-- One observation in each direction of the same unordered pair: an exact
tie of the direction counters. -/
def tieEntries : List Price := [⟨1, "A", ⟨"B", 2⟩⟩, ⟨2, "B", ⟨"A", 3⟩⟩]

/-- Two same-day observations of the same directed pair. -/
def dupEntries : List Price := [⟨1, "A", ⟨"B", 2⟩⟩, ⟨1, "A", ⟨"B", 3⟩⟩]

/-- A price map holding a single three-point series. -/
def threeSeries : FavaPriceMap :=
  ⟨[], [], [(("A", "B"), [(1, 5), (2, 7), (4, 9)])]⟩

/-! ### Claim theorems -/

/-- C4: `get_price_point(X, X, date)` always returns rate 1 with date `None`,
for every currency, every date (or none) and every index contents, without
consulting any stored series. -/
theorem C4_identity_pair (m : FavaPriceMap) (X : Currency)
    (date : Option Nat) :
    m.get_price_point (X, X) date = some (none, some 1) := by
  rw [FavaPriceMap.get_price_point]
  show get_price_point_fuel m (1 + 1) (X, X) date = some (none, some 1)
  rw [get_price_point_fuel, if_pos rfl]

/-- C9: on every constructed index, `get_price_point` never raises: for every
pair and every (optional) date it returns a value (`isSome`; a runtime error
is modelled as `none`), the no-data cases being returned as `(None, None)`. -/
theorem C9_never_raises (es : List Price) (bq : BaseQuote)
    (date : Option Nat) :
    ((FavaPriceMap.ofEntries es).get_price_point bq date).isSome :=
  gpp_ofEntries_isSome es bq date

/-- C8: `get_all_prices` returns exactly the stored chronological series (the
per-day collapse of the ingested contributions) when one exists and no data
otherwise; in particular in the pure triangulation scenario `(A,B)` has no
stored series even though the point lookup resolves. -/
theorem C8_get_all_prices_raw :
    (∀ (es : List Price) (bq : BaseQuote),
        (FavaPriceMap.ofEntries es).get_all_prices bq =
          if contribs bq es = [] then none
          else some (keep_last_per_day (contribs bq es))) ∧
      (FavaPriceMap.ofEntries triEntries).get_all_prices ("A", "B") = none ∧
      (FavaPriceMap.ofEntries triEntries).get_price_point ("A", "B")
        (some 1) = some (some 1, some 3) :=
  ⟨fun es bq => map_lookup es bq, by decide, by decide⟩

/-- C1: evaluation of the code at the failing input.  With only the legs
`(A,C)` at rate 2 and `(C,B)` at rate 3 on day 1, the fallback of
`get_price` returns 3 — the second leg's rate alone at the pivot date — and
not the product 2 * 3 = 6 of the two legs' rates that the claim (and the
spec's triangulation section) requires.  The returned date is the pivot
date. -/
theorem C1_fallback_rate_not_composed :
    (FavaPriceMap.ofEntries triEntries).get_price ("A", "C") (some 1) =
        some (some 2) ∧
      (FavaPriceMap.ofEntries triEntries).get_price ("C", "B") (some 1) =
        some (some 3) ∧
      (FavaPriceMap.ofEntries triEntries).get_price_point ("A", "B")
        (some 1) = some (some 1, some 3) ∧
      (2 : ℚ) * 3 = 6 ∧
      ¬(FavaPriceMap.ofEntries triEntries).get_price ("A", "B") (some 1) =
        some (some 6) :=
  ⟨by decide, by decide, by decide, by norm_num, by decide⟩

/-- C2 counterexample: with exactly one observation in each direction (equal
counts), `commodity_pairs` contains neither direction — in particular not
the first-seen direction `(A,B)` that the claim requires. -/
theorem C2_tie_counterexample :
    obsCount ("A", "B") tieEntries = obsCount ("B", "A") tieEntries ∧
      ¬("A", "B") ∈ (FavaPriceMap.ofEntries tieEntries).commodity_pairs [] ∧
      ¬("B", "A") ∈ (FavaPriceMap.ofEntries tieEntries).commodity_pairs [] := by
  have hf : (FavaPriceMap.ofEntries tieEntries)._forward_pairs = [] := by
    decide
  refine ⟨by decide, ?_, ?_⟩ <;>
  · intro hmem
    rcases (mem_commodity_pairs _ _ _).1 hmem with hm | ⟨hm, _, _⟩ <;>
    · rw [hf] at hm
      cases hm

/-- C2 amended: for every pair of directed pairs `(A,B)` and `(B,A)` ingested
with exactly equal observation counts, the forward-pair filter (strict
comparison) drops both directions, so `commodity_pairs` contains neither,
for every operating-currency list. -/
theorem C2_equal_counts_neither_direction (es : List Price)
    (A B : Currency) (oc : List Currency)
    (h : obsCount (A, B) es = obsCount (B, A) es) :
    ¬(A, B) ∈ (FavaPriceMap.ofEntries es).commodity_pairs oc ∧
      ¬(B, A) ∈ (FavaPriceMap.ofEntries es).commodity_pairs oc := by
  have h1 := not_forward_of_eq_counts es h
  have h2 := not_forward_of_eq_counts es h.symm
  constructor
  · intro hmem
    rcases (mem_commodity_pairs _ _ _).1 hmem with hm | ⟨hm, _, _⟩
    · exact h1 hm
    · exact h2 hm
  · intro hmem
    rcases (mem_commodity_pairs _ _ _).1 hmem with hm | ⟨hm, _, _⟩
    · exact h2 hm
    · exact h1 hm

/-- C2 witness: the amended tie-break behaviour at a concrete tie, with both
currencies operating. -/
theorem C2_equal_counts_witness :
    obsCount ("A", "B") tieEntries = obsCount ("B", "A") tieEntries ∧
      (¬("A", "B") ∈ (FavaPriceMap.ofEntries tieEntries).commodity_pairs
          ["A", "B"] ∧
        ¬("B", "A") ∈ (FavaPriceMap.ofEntries tieEntries).commodity_pairs
          ["A", "B"]) :=
  ⟨by decide,
    C2_equal_counts_neither_direction tieEntries "A" "B" ["A", "B"]
      (by decide)⟩

/-- C7: `commodity_pairs` contains exactly the forward pairs together with
the reversals of forward pairs whose two currencies are both operating; the
result is sorted ascending in the lexicographic pair order; and with an
empty operating list it is exactly (a permutation of) the forward pairs. -/
theorem C7_commodity_pairs_shape (m : FavaPriceMap) (oc : List Currency) :
    (∀ p : BaseQuote, p ∈ m.commodity_pairs oc ↔
        p ∈ m._forward_pairs ∨
          ((p.2, p.1) ∈ m._forward_pairs ∧ p.1 ∈ oc ∧ p.2 ∈ oc)) ∧
      (m.commodity_pairs oc).Pairwise (fun a b => bqLE a b = true) ∧
      (m.commodity_pairs []).Perm m._forward_pairs := by
  refine ⟨mem_commodity_pairs m oc, ?_, ?_⟩
  · rw [FavaPriceMap.commodity_pairs]
    exact List.sorted_mergeSort bqLE_trans bqLE_total _
  · rw [FavaPriceMap.commodity_pairs]
    have hextra : (m._forward_pairs.filterMap fun bq =>
        if bq.1 ∈ ([] : List Currency) ∧ bq.2 ∈ ([] : List Currency) then
          some (bq.2, bq.1)
        else none) = [] := by
      simp
    rw [hextra, List.append_nil]
    exact List.mergeSort_perm _ _

end Fava

namespace Fava

/-- C3: on a stored three-point series at dates `d1 < d2 < d3`, a query at
any `d` with `d2 <= d < d3` returns the point at `d2`, a query at `d < d1`
returns no data (no backward extrapolation), and a query with no date
returns the point at `d3`. -/
theorem C3_monotonic_date_lookup (m : FavaPriceMap) (base quote : Currency)
    (hne : ¬base = quote) (d1 d2 d3 : Nat) (r1 r2 r3 : ℚ)
    (h12 : d1 < d2) (h23 : d2 < d3)
    (hl : alookup (base, quote) m._map =
      some [(d1, r1), (d2, r2), (d3, r3)]) :
    (∀ d : Nat, d2 ≤ d → d < d3 →
        m.get_price_point (base, quote) (some d) =
          some (some d2, some r2)) ∧
      (∀ d : Nat, d < d1 →
        m.get_price_point (base, quote) (some d) = some (none, none)) ∧
      m.get_price_point (base, quote) none = some (some d3, some r3) := by
  have hne2 : ¬((base, quote) : BaseQuote).1 = ((base, quote) : BaseQuote).2 :=
    by simpa using hne
  have hsort : (([(d1, r1), (d2, r2), (d3, r3)] : List PricePoint).Pairwise
      fun p q => p.1 ≤ q.1) := by
    simp only [List.pairwise_cons, List.mem_cons, List.mem_singleton,
      List.not_mem_nil, List.Pairwise.nil]
    refine ⟨?_, ?_, ?_⟩
    · rintro p (rfl | rfl | h)
      · show d1 ≤ d2
        omega
      · show d1 ≤ d3
        omega
      · cases h
    · rintro p (rfl | h)
      · show d2 ≤ d3
        omega
      · cases h
    · simp
  have hlen : ([(d1, r1), (d2, r2), (d3, r3)] : List PricePoint).length = 3 :=
    rfl
  refine ⟨?_, ?_, ?_⟩
  · intro d hd2 hd3
    rcases bisect_spec hsort d with ⟨hjle, hlow, hhigh⟩
    rw [hlen] at hjle
    have hA : ¬bisect [(d1, r1), (d2, r2), (d3, r3)] d ≤ 1 := by
      intro hle1
      have h5 : d < d2 := hhigh 1 (by omega) (by omega)
      omega
    have hB : ¬3 ≤ bisect [(d1, r1), (d2, r2), (d3, r3)] d := by
      intro hge3
      have h5 : d3 ≤ d := hlow 2 (by omega) (by omega)
      omega
    have hj2 : bisect [(d1, r1), (d2, r2), (d3, r3)] d = 2 := by omega
    rw [FavaPriceMap.get_price_point]
    show get_price_point_fuel m (1 + 1) (base, quote) (some d) =
      some (some d2, some r2)
    rw [gpp_fuel_direct m 1 hne2 hl]
    simp only [hj2]
    rfl
  · intro d hd1
    rcases bisect_spec hsort d with ⟨hjle, hlow, _⟩
    rw [hlen] at hjle
    have hj0 : bisect [(d1, r1), (d2, r2), (d3, r3)] d = 0 := by
      by_contra hcon
      have h5 : d1 ≤ d := hlow 0 (by omega) (by omega)
      omega
    rw [FavaPriceMap.get_price_point]
    show get_price_point_fuel m (1 + 1) (base, quote) (some d) =
      some (none, none)
    rw [gpp_fuel_direct m 1 hne2 hl]
    simp only [hj0]
    rfl
  · rw [FavaPriceMap.get_price_point]
    show get_price_point_fuel m (1 + 1) (base, quote) none =
      some (some d3, some r3)
    rw [gpp_fuel_direct m 1 hne2 hl]
    rfl

/-- C3 witness: the three cases at a concrete three-point series. -/
theorem C3_monotonic_date_witness :
    ¬("A" : Currency) = "B" ∧ (1 : Nat) < 2 ∧ (2 : Nat) < 4 ∧
      alookup ("A", "B") threeSeries._map = some [(1, 5), (2, 7), (4, 9)] ∧
      threeSeries.get_price_point ("A", "B") (some 3) =
        some (some 2, some 7) ∧
      threeSeries.get_price_point ("A", "B") (some 0) = some (none, none) ∧
      threeSeries.get_price_point ("A", "B") none = some (some 4, some 9) := by
  have h := C3_monotonic_date_lookup threeSeries "A" "B" (by decide)
    1 2 4 5 7 9 (by decide) (by decide) rfl
  exact ⟨by decide, by decide, by decide, rfl,
    h.1 3 (by decide) (by decide), h.2.1 0 (by decide), h.2.2⟩

/-- C6: on a date-ascending entry stream, every stored series has strictly
increasing dates, and its slice at any date `d` is exactly the last-ingested
contribution (direct or synthetic inverse) for that pair on day `d` — so
several same-day observations collapse to one point, the last one. -/
theorem C6_same_day_collapse (es : List Price)
    (hs : es.Pairwise fun a b => a.date ≤ b.date) (bq : BaseQuote)
    (l : List PricePoint)
    (hl : alookup bq (FavaPriceMap.ofEntries es)._map = some l) :
    (l.Pairwise fun p q => p.1 < q.1) ∧
      ∀ d : Nat, l.filter (fun p => decide (p.1 = d)) =
        ((contribs bq es).filter fun p =>
          decide (p.1 = d)).getLast?.toList := by
  refine ⟨series_sorted hs hl, ?_⟩
  intro d
  rw [map_lookup] at hl
  by_cases h : contribs bq es = []
  · rw [if_pos h] at hl
    cases hl
  · rw [if_neg h] at hl
    rw [← Option.some_inj.1 hl]
    exact keep_last_filter (contribs_sorted hs) d

/-- C6 witness: two same-day observations of `(A,B)` collapse to the single
last-ingested point `(1, 3)`. -/
theorem C6_same_day_witness :
    (dupEntries.Pairwise fun a b => a.date ≤ b.date) ∧
      alookup ("A", "B") (FavaPriceMap.ofEntries dupEntries)._map =
        some [(1, 3)] ∧
      (([(1, 3)] : List PricePoint).Pairwise fun p q => p.1 < q.1) ∧
      ∀ d : Nat, ([(1, 3)] : List PricePoint).filter
          (fun p => decide (p.1 = d)) =
        ((contribs ("A", "B") dupEntries).filter fun p =>
          decide (p.1 = d)).getLast?.toList := by
  have h := C6_same_day_collapse dupEntries (by decide) ("A", "B") [(1, 3)]
    (by decide)
  exact ⟨by decide, by decide, h.1, h.2⟩

/-- C10: on a date-ascending entry stream, every stored series is non-empty
with strictly increasing dates; the recursion of `get_price_point`
stabilises at fuel 2 (the fallback makes at most one recursive call, which
lands in the direct branch); and no lookup ever raises (all the internal
index accesses are in bounds, `isSome`). -/
theorem C10_construction_invariants (es : List Price)
    (hs : es.Pairwise fun a b => a.date ≤ b.date) :
    (∀ (bq : BaseQuote) (l : List PricePoint),
        alookup bq (FavaPriceMap.ofEntries es)._map = some l →
          l ≠ [] ∧ l.Pairwise fun p q => p.1 < q.1) ∧
      (∀ (bq : BaseQuote) (date : Option Nat) (fuel : Nat),
        get_price_point_fuel (FavaPriceMap.ofEntries es) (fuel + 2) bq date =
          (FavaPriceMap.ofEntries es).get_price_point bq date) ∧
      (∀ (bq : BaseQuote) (date : Option Nat),
        ((FavaPriceMap.ofEntries es).get_price_point bq date).isSome) := by
  refine ⟨?_, ?_, ?_⟩
  · intro bq l hl
    exact ⟨map_values_ne_nil es bq hl, series_sorted hs hl⟩
  · intro bq date fuel
    exact get_price_point_fuel_indep _ bq date fuel
  · intro bq date
    exact gpp_ofEntries_isSome es bq date

/-- C10 witness: the invariants at a concrete entry stream. -/
theorem C10_construction_witness :
    (triEntries.Pairwise fun a b => a.date ≤ b.date) ∧
      ((∀ (bq : BaseQuote) (l : List PricePoint),
          alookup bq (FavaPriceMap.ofEntries triEntries)._map = some l →
            l ≠ [] ∧ l.Pairwise fun p q => p.1 < q.1) ∧
        (∀ (bq : BaseQuote) (date : Option Nat) (fuel : Nat),
          get_price_point_fuel (FavaPriceMap.ofEntries triEntries)
              (fuel + 2) bq date =
            (FavaPriceMap.ofEntries triEntries).get_price_point bq date) ∧
        (∀ (bq : BaseQuote) (date : Option Nat),
          ((FavaPriceMap.ofEntries triEntries).get_price_point bq
            date).isSome)) :=
  ⟨by decide, C10_construction_invariants triEntries (by decide)⟩

end Fava

namespace Fava

/-- C5: ingesting `(A,B)` at rate `r ≠ 0` on day `d` makes
`get_price_point(B, A, d)` return `(d, 1/r)`, provided no later entry
contributes to the shared `(B,A)` series on that same day (a later direct
`(B,A)` observation — or a later same-day `(A,B)` observation — would win,
since the last-ingested same-day entry overrides). -/
theorem C5_inverse_consistency (pre post : List Price) (A B : Currency)
    (d : Nat) (r : ℚ) (hAB : ¬A = B) (hr : ¬r = 0)
    (hsorted : ((pre ++ (⟨d, A, ⟨B, r⟩⟩ : Price) :: post).Pairwise
      fun a b => a.date ≤ b.date))
    (hpost : ∀ q ∈ post, ∀ x ∈ contribsOne (B, A) q, ¬x.1 = d) :
    (FavaPriceMap.ofEntries
        (pre ++ (⟨d, A, ⟨B, r⟩⟩ : Price) :: post)).get_price_point
      (B, A) (some d) = some (some d, some (1 / r)) := by
  have hone : contribsOne (B, A) (⟨d, A, ⟨B, r⟩⟩ : Price) = [(d, 1 / r)] := by
    rw [contribsOne, if_neg (by simp [hAB]), if_pos ⟨hr, rfl⟩]
    rfl
  have hcontr : contribs (B, A) (pre ++ (⟨d, A, ⟨B, r⟩⟩ : Price) :: post) =
      contribs (B, A) pre ++ ((d, 1 / r) :: contribs (B, A) post) := by
    rw [contribs_append, contribs, hone]
    rfl
  have hpostnil : (contribs (B, A) post).filter
      (fun p => decide (p.1 = d)) = [] := by
    rw [List.filter_eq_nil_iff]
    intro x hx
    rcases mem_contribs.1 hx with ⟨q, hq, hxq⟩
    simpa using hpost q hq x hxq
  have hfilter : (contribs (B, A)
        (pre ++ (⟨d, A, ⟨B, r⟩⟩ : Price) :: post)).filter
      (fun p => decide (p.1 = d)) =
      ((contribs (B, A) pre).filter fun p => decide (p.1 = d)) ++
        [(d, 1 / r)] := by
    rw [hcontr, List.filter_append, List.filter_cons_of_pos (by simp),
      hpostnil]
  have hlast : ((contribs (B, A)
        (pre ++ (⟨d, A, ⟨B, r⟩⟩ : Price) :: post)).filter
      (fun p => decide (p.1 = d))).getLast? = some (d, 1 / r) := by
    rw [hfilter]
    exact List.getLast?_concat _
  have hnonnil : contribs (B, A) (pre ++ (⟨d, A, ⟨B, r⟩⟩ : Price) :: post) ≠
      [] := by
    rw [hcontr]
    simp
  have hl : alookup (B, A) (FavaPriceMap.ofEntries
        (pre ++ (⟨d, A, ⟨B, r⟩⟩ : Price) :: post))._map =
      some (keep_last_per_day (contribs (B, A)
        (pre ++ (⟨d, A, ⟨B, r⟩⟩ : Price) :: post))) := by
    rw [map_lookup, if_neg hnonnil]
  have hsl : ((keep_last_per_day (contribs (B, A)
      (pre ++ (⟨d, A, ⟨B, r⟩⟩ : Price) :: post))).Pairwise
      fun p q => p.1 < q.1) :=
    keep_last_sorted (contribs_sorted hsorted)
  have hflt : (keep_last_per_day (contribs (B, A)
        (pre ++ (⟨d, A, ⟨B, r⟩⟩ : Price) :: post))).filter
      (fun p => decide (p.1 = d)) = [(d, 1 / r)] := by
    rw [keep_last_filter (contribs_sorted hsorted) d, hlast]
    rfl
  rcases bisect_find hsl hflt with ⟨hbz, hget⟩
  have hne2 : ¬((B, A) : BaseQuote).1 = ((B, A) : BaseQuote).2 := by
    simpa using fun h => hAB h.symm
  rw [FavaPriceMap.get_price_point]
  show get_price_point_fuel _ (1 + 1) (B, A) (some d) =
    some (some d, some (1 / r))
  rw [gpp_fuel_direct _ 1 hne2 hl]
  simp only [if_neg hbz, hget]
  rfl

/-- C5 witness: a single `(A,B)` observation at rate 2 makes the reverse
lookup on its date return the synthetic inverse `1/2`. -/
theorem C5_inverse_witness :
    ¬("A" : Currency) = "B" ∧ ¬(2 : ℚ) = 0 ∧
      ((([] : List Price) ++ (⟨1, "A", ⟨"B", 2⟩⟩ : Price) ::
        ([] : List Price)).Pairwise fun a b => a.date ≤ b.date) ∧
      (∀ q ∈ ([] : List Price), ∀ x ∈ contribsOne ("B", "A") q,
        ¬x.1 = 1) ∧
      (FavaPriceMap.ofEntries (([] : List Price) ++
          (⟨1, "A", ⟨"B", 2⟩⟩ : Price) :: ([] : List Price))).get_price_point
        ("B", "A") (some 1) = some (some 1, some (1 / 2)) :=
  ⟨by decide, by decide, by decide, by simp,
    C5_inverse_consistency [] [] "A" "B" 1 2 (by decide) (by decide)
      (by decide) (by simp)⟩

end Fava
